import Mathlib

/-!
Verification of the binary search tree of `src/BST.h` (class template `BST`).

The tree of `BinNode` cells reached from `myRoot` is embedded as the algebraic
type `Tree`: the null pointer becomes `Tree.lf` and a `BinNode` with fields
`data`, `left`, `right` becomes `Tree.nd data left right`.  The element type
`DataType`, required by the code to support `operator<` as a strict total
order, becomes a `LinearOrder` parameter.  Operations that throw
(`insert`, `remove`) return the tree after the call together with the thrown
message, if any; since the C++ code throws before mutating anything, the
returned tree in the error case is the input tree itself.  Operations that
write to an `std::ostream` return the sequence of strings written to it.

Member functions left as "add code here" placeholders in the source
(`search`, `search2`, `preorder`, `postorder`, `preorderAux`, `postorderAux`)
are modelled from the spec, which specifies them "to their intended, standard
behavior"; each such definition carries a doc comment starting with
"Modelled from the spec:".
-/

namespace BSTLab

/-- The linked structure of `BinNode` cells: `lf` is the null pointer and
`nd data left right` is a node with the three fields of `BinNode`. -/
inductive Tree (α : Type) where
  | lf : Tree α
  | nd (data : α) (left : Tree α) (right : Tree α) : Tree α
deriving DecidableEq

variable {α : Type}

/-- The inorder sequence of values held by the nodes of the tree
(left subtree, node value, right subtree): the contents of the tree. -/
def toList : Tree α → List α
  | .lf => []
  | .nd d l r => toList l ++ d :: toList r

/-- Number of nodes of the tree. -/
def size : Tree α → Nat
  | .lf => 0
  | .nd _ l r => size l + size r + 1

/-- `BST::empty` from `src/BST.h`: `myRoot == nullptr`. -/
def empty : Tree α → Bool
  | .lf => true
  | .nd _ _ _ => false

/-- Modelled from the spec: `BST::search` is an unimplemented placeholder in
`src/BST.h` ("add code here").  Per the spec it "walks from the root; at each
node, if item is less than the node value descend left, if greater descend
right, if equal report found.  Returns false once an absent child is reached
without a match." -/
def search [LinearOrder α] (t : Tree α) (item : α) : Bool :=
  match t with
  | .lf => false
  | .nd d l r =>
    if item < d then search l item
    else if d < item then search r item
    else true

/-- Modelled from the spec: `BST::search2` is an unimplemented placeholder in
`src/BST.h`.  Per the spec it is "the same descent as search but additionally
remembers the parent at each step", returning the found flag, the node
pointer and the parent by out-parameter.  The found flag is modelled exactly;
`locptr` is modelled as the subtree rooted at the found node (`none` when the
descent reaches an absent child). -/
def search2 [LinearOrder α] (t : Tree α) (item : α) : Bool × Option (Tree α) :=
  match t with
  | .lf => (false, none)
  | .nd d l r =>
    if item < d then search2 l item
    else if d < item then search2 r item
    else (true, some (.nd d l r))

/-- `BST::insert` from `src/BST.h`: descend from the root comparing with `<`,
tracking the last visited node; if an equal value is met, throw
"Item already in the tree" (the code throws before touching any link, so the
tree is returned unchanged); otherwise link a fresh node holding `item`, with
both links null, as the left or right child of the last visited node
according to the final comparison (or make it the root if the tree was
empty).  Returns the tree after the call and the thrown message, if any. -/
def insert [LinearOrder α] (t : Tree α) (item : α) : Tree α × Option String :=
  match t with
  | .lf => (.nd item .lf .lf, none)
  | .nd d l r =>
    if item < d then
      (.nd d (insert l item).1 r, (insert l item).2)
    else if d < item then
      (.nd d l (insert r item).1, (insert r item).2)
    else (.nd d l r, some "Item already in the tree")

/-- The two-child case of `BST::remove` from `src/BST.h`, applied to a node
with value `d`, left subtree `l` and right subtree `r` standing for the
subtree rooted at the right child of the node being removed: starting at the
right child, descend left (`while (xSucc->left != nullptr)`) to the inorder
successor, tracking its parent (initialised to the removed node itself);
then splice the right subtree of the successor into the parent link that
pointed at the successor.  Returns the successor value (which the code copies
into the removed node) and the right subtree with the successor unlinked. -/
def delMin (d : α) (l r : Tree α) : α × Tree α :=
  match l with
  | .lf => (d, r)
  | .nd dl ll lr =>
    ((delMin dl ll lr).1, .nd d (delMin dl ll lr).2 r)

/-- `BST::remove` from `src/BST.h`.  The locate step calls `search2`, an
unimplemented placeholder, so the descent to the removed node is modelled
from the spec (the same comparisons as `search`); the rest follows the
source: if the item is absent, throw "Item not in the BST" with the tree
untouched; if the found node has two children, overwrite its value with the
value of its inorder successor and unlink the successor (`delMin`); otherwise
splice the sole subtree of the found node (left if present, else right) into
the parent link (or make it the root).  Returns the tree after the call and
the thrown message, if any. -/
def remove [LinearOrder α] (t : Tree α) (item : α) : Tree α × Option String :=
  match t with
  | .lf => (.lf, some "Item not in the BST")
  | .nd d l r =>
    if item < d then
      (.nd d (remove l item).1 r, (remove l item).2)
    else if d < item then
      (.nd d l (remove r item).1, (remove r item).2)
    else
      match l, r with
      | .nd dl ll lr, .nd dr rl rr =>
        (.nd (delMin dr rl rr).1 (.nd dl ll lr) (delMin dr rl rr).2, none)
      | .lf, _ => (r, none)
      | _, _ => (l, none)

/-- BST order invariant of §3 of the spec, as a decidable check: at every
node, every value in the left subtree is strictly less than the node value
and every value in the right subtree is strictly greater. -/
def isBSTb [LinearOrder α] : Tree α → Bool
  | .lf => true
  | .nd d l r =>
    (toList l).all (fun y => decide (y < d)) &&
    (toList r).all (fun y => decide (d < y)) &&
    isBSTb l && isBSTb r

/-- `t2` is `t1` with exactly one fresh node holding `x`, with both links
null, hung at a formerly absent child (or made the root if `t1` was empty):
the shape of a successful `BST::insert`. -/
inductive AddedLeaf (x : α) : Tree α → Tree α → Prop
  | root : AddedLeaf x .lf (.nd x .lf .lf)
  | left {l l2 : Tree α} (d : α) (r : Tree α) :
      AddedLeaf x l l2 → AddedLeaf x (.nd d l r) (.nd d l2 r)
  | right {r r2 : Tree α} (d : α) (l : Tree α) :
      AddedLeaf x r r2 → AddedLeaf x (.nd d l r) (.nd d l r2)

/-- `RemovedLeftmost t m t2` says: `t2` is `t` with the node reached by
descending left from the root until no left child remains unlinked, `m` being
the value that node held; the unlinked node has no left child, and its right
subtree is spliced into the link of its parent that pointed at it.  This is
the shape of the successor extraction in the two-child case of
`BST::remove`. -/
inductive RemovedLeftmost : Tree α → α → Tree α → Prop
  | here (d : α) (r : Tree α) : RemovedLeftmost (.nd d .lf r) d r
  | deeper {l l2 : Tree α} {m : α} (d : α) (r : Tree α) :
      RemovedLeftmost l m l2 → RemovedLeftmost (.nd d l r) m (.nd d l2 r)

/-- The preorder sequence of values (node value, left subtree, right
subtree), used to state the traversal-equivalence property. -/
def preorderVals : Tree α → List α
  | .lf => []
  | .nd d l r => d :: (preorderVals l ++ preorderVals r)

/-- The postorder sequence of values (left subtree, right subtree, node
value), used to state the traversal-equivalence property. -/
def postorderVals : Tree α → List α
  | .lf => []
  | .nd d l r => postorderVals l ++ postorderVals r ++ [d]

/-- `BST::inorderAux` from `src/BST.h`: for each node, first the left
subtree, then `out << subtreeRoot->data << separator`, then the right
subtree.  The output stream is modelled as the list of strings written to
it, in order. -/
def inorderAux [ToString α] (sep : String) : Tree α → List String
  | .lf => []
  | .nd d l r => inorderAux sep l ++ [toString d, sep] ++ inorderAux sep r

/-- `BST::inorder` from `src/BST.h`: `inorderAux(out, myRoot, separator)`. -/
def inorder [ToString α] (sep : String) (t : Tree α) : List String :=
  inorderAux sep t

/-- Modelled from the spec: `BST::preorderAux` is an unimplemented
placeholder in `src/BST.h`; per the spec the preorder traversal writes each
element followed by the separator in the order value, left, right. -/
def preorderAux [ToString α] (sep : String) : Tree α → List String
  | .lf => []
  | .nd d l r => [toString d, sep] ++ preorderAux sep l ++ preorderAux sep r

/-- Modelled from the spec: `BST::preorder` is an unimplemented placeholder
in `src/BST.h`; like `inorder` it hands `myRoot` to its auxiliary. -/
def preorder [ToString α] (sep : String) (t : Tree α) : List String :=
  preorderAux sep t

/-- Modelled from the spec: `BST::postorderAux` is an unimplemented
placeholder in `src/BST.h`; per the spec the postorder traversal writes each
element followed by the separator in the order left, right, value. -/
def postorderAux [ToString α] (sep : String) : Tree α → List String
  | .lf => []
  | .nd d l r => postorderAux sep l ++ postorderAux sep r ++ [toString d, sep]

/-- Modelled from the spec: `BST::postorder` is an unimplemented placeholder
in `src/BST.h`; like `inorder` it hands `myRoot` to its auxiliary. -/
def postorder [ToString α] (sep : String) (t : Tree α) : List String :=
  postorderAux sep t

/-- The writes that the spec prescribes for a traversal: the values of
`vals` in order, each followed by the separator. -/
def emitAll [ToString α] (sep : String) : List α → List String
  | [] => []
  | v :: vs => toString v :: sep :: emitAll sep vs

/-- Models `out << std::setw(w) << s`: pad `s` on the left with spaces to a
total width of `w` columns (no padding when `s` is already that wide). -/
def setwPad (w : Nat) (s : String) : String :=
  String.mk (List.replicate (w - s.length) ' ') ++ s

/-- `BST::graphAux` from `src/BST.h`: for a node, first the right subtree at
`indent + 8`, then `out << setw(indent) << " " << subtreeRoot->data << endl`,
then the left subtree at `indent + 8`; for an absent child,
`out << setw(indent) << " " << "_" << endl`.  The stream is modelled as the
list of strings written, in order. -/
def graphAux [ToString α] (indent : Nat) : Tree α → List String
  | .lf => [setwPad indent " ", "_", "\n"]
  | .nd d l r =>
    graphAux (indent + 8) r ++ [setwPad indent " ", toString d, "\n"] ++
      graphAux (indent + 8) l

/-- `BST::graph` from `src/BST.h`: `graphAux(out, 0, myRoot)`. -/
def graph [ToString α] (t : Tree α) : List String :=
  graphAux 0 t

/-- The lines that the spec prescribes for `graph`, each as an indent column
count paired with its content: for a node, the right subtree lines at
`indent + 8`, then the node value at `indent`, then the left subtree lines at
`indent + 8`; for an absent child, the placeholder marker "_" at `indent`. -/
def graphLines [ToString α] (indent : Nat) : Tree α → List (Nat × String)
  | .lf => [(indent, "_")]
  | .nd d l r =>
    graphLines (indent + 8) r ++ [(indent, toString d)] ++
      graphLines (indent + 8) l

/-- The writes producing a list of indented lines: each line is a space
padded to its indent width, its content, and a line break. -/
def renderAll : List (Nat × String) → List String
  | [] => []
  | p :: ps => setwPad p.1 " " :: p.2 :: "\n" :: renderAll ps

/-- State-passing model of `BST::inorderAux`: the traversal reads the links
and data of each node and reconstructs the tree it returns, alongside the
writes it makes; the code performs no assignment to any node field or to
`myRoot`, which the theorem about this definition makes explicit. -/
def inorderSt [ToString α] (sep : String) : Tree α → Tree α × List String
  | .lf => (.lf, [])
  | .nd d l r =>
    (.nd d (inorderSt sep l).1 (inorderSt sep r).1,
      (inorderSt sep l).2 ++ [toString d, sep] ++ (inorderSt sep r).2)

/-- State-passing model of the preorder traversal (see `inorderSt`). -/
def preorderSt [ToString α] (sep : String) : Tree α → Tree α × List String
  | .lf => (.lf, [])
  | .nd d l r =>
    (.nd d (preorderSt sep l).1 (preorderSt sep r).1,
      [toString d, sep] ++ (preorderSt sep l).2 ++ (preorderSt sep r).2)

/-- State-passing model of the postorder traversal (see `inorderSt`). -/
def postorderSt [ToString α] (sep : String) : Tree α → Tree α × List String
  | .lf => (.lf, [])
  | .nd d l r =>
    (.nd d (postorderSt sep l).1 (postorderSt sep r).1,
      (postorderSt sep l).2 ++ (postorderSt sep r).2 ++ [toString d, sep])

/-- State-passing model of `BST::graphAux` (see `inorderSt`). -/
def graphSt [ToString α] (indent : Nat) : Tree α → Tree α × List String
  | .lf => (.lf, [setwPad indent " ", "_", "\n"])
  | .nd d l r =>
    (.nd d (graphSt (indent + 8) l).1 (graphSt (indent + 8) r).1,
      (graphSt (indent + 8) r).2 ++ [setwPad indent " ", toString d, "\n"] ++
        (graphSt (indent + 8) l).2)

/-- A call on the public mutating interface of the tree. -/
inductive Op (α : Type) where
  | ins (x : α) : Op α
  | del (x : α) : Op α

/-- The tree state after one call: the tree component returned by `insert`
or `remove` (the thrown message, if any, is discarded; the tree is unchanged
in that case). -/
def applyOp [LinearOrder α] (t : Tree α) : Op α → Tree α
  | .ins x => (insert t x).1
  | .del x => (remove t x).1

/-- The tree produced by a sequence of `insert`/`remove` calls applied to an
initially empty tree. -/
def applyOps [LinearOrder α] (ops : List (Op α)) : Tree α :=
  ops.foldl applyOp .lf

/-! ### Basic lemmas -/

@[simp] theorem toList_lf : toList (.lf : Tree α) = [] := rfl

@[simp] theorem toList_nd (d : α) (l r : Tree α) :
    toList (.nd d l r) = toList l ++ d :: toList r := rfl

@[simp] theorem size_lf : size (.lf : Tree α) = 0 := rfl

@[simp] theorem size_nd (d : α) (l r : Tree α) :
    size (.nd d l r) = size l + size r + 1 := rfl

theorem length_toList (t : Tree α) : (toList t).length = size t := by
  induction t with
  | lf => rfl
  | nd d l r ihl ihr => simp [ihl, ihr]; omega

@[simp] theorem isBSTb_lf [LinearOrder α] : isBSTb (.lf : Tree α) = true := rfl

theorem isBSTb_nd [LinearOrder α] {d : α} {l r : Tree α} :
    isBSTb (.nd d l r) = true ↔
      (∀ y ∈ toList l, y < d) ∧ (∀ y ∈ toList r, d < y) ∧
        isBSTb l = true ∧ isBSTb r = true := by
  simp [isBSTb, List.all_eq_true, and_assoc]

theorem mem_left_of_lt [LinearOrder α] {d x : α} {l r : Tree α}
    (hr : ∀ y ∈ toList r, d < y) (hx : x < d) :
    x ∈ toList (.nd d l r) ↔ x ∈ toList l := by
  simp only [toList_nd, List.mem_append, List.mem_cons]
  constructor
  · rintro (h | h | h)
    · exact h
    · exact absurd hx (h ▸ lt_irrefl d)
    · exact absurd hx (lt_asymm (hr x h))
  · exact fun h => Or.inl h

theorem mem_right_of_lt [LinearOrder α] {d x : α} {l r : Tree α}
    (hl : ∀ y ∈ toList l, y < d) (hx : d < x) :
    x ∈ toList (.nd d l r) ↔ x ∈ toList r := by
  simp only [toList_nd, List.mem_append, List.mem_cons]
  constructor
  · rintro (h | h | h)
    · exact absurd hx (lt_asymm (hl x h))
    · exact absurd hx (h ▸ lt_irrefl d)
    · exact h
  · exact fun h => Or.inr (Or.inr h)

/-! ### Correctness of `search` -/

theorem mem_of_search [LinearOrder α] {t : Tree α} {x : α}
    (h : search t x = true) : x ∈ toList t := by
  induction t with
  | lf => simp [search] at h
  | nd d l r ihl ihr =>
    by_cases h1 : x < d
    · rw [search, if_pos h1] at h
      simp [ihl h]
    · by_cases h2 : d < x
      · rw [search, if_neg h1, if_pos h2] at h
        simp [ihr h]
      · have : x = d := le_antisymm (not_lt.1 h2) (not_lt.1 h1)
        simp [this]

theorem search_iff_mem [LinearOrder α] {t : Tree α} (hb : isBSTb t = true)
    (x : α) : search t x = true ↔ x ∈ toList t := by
  induction t with
  | lf => simp [search]
  | nd d l r ihl ihr =>
    obtain ⟨hl, hr, bl, br⟩ := isBSTb_nd.1 hb
    by_cases h1 : x < d
    · rw [search, if_pos h1, mem_left_of_lt hr h1]
      exact ihl bl
    · by_cases h2 : d < x
      · rw [search, if_neg h1, if_pos h2, mem_right_of_lt hl h2]
        exact ihr br
      · have hx : x = d := le_antisymm (not_lt.1 h2) (not_lt.1 h1)
        rw [search, if_neg h1, if_neg h2]
        simp [hx]

theorem search2_fst_eq_search [LinearOrder α] (t : Tree α) (x : α) :
    (search2 t x).1 = search t x := by
  induction t with
  | lf => rfl
  | nd d l r ihl ihr =>
    by_cases h1 : x < d
    · rw [search2, search, if_pos h1, if_pos h1, ihl]
    · by_cases h2 : d < x
      · rw [search2, search, if_neg h1, if_pos h2, if_neg h1, if_pos h2, ihr]
      · rw [search2, search, if_neg h1, if_neg h2, if_neg h1, if_neg h2]

/-! ### Correctness of `insert` -/

theorem insert_of_mem [LinearOrder α] {t : Tree α} (hb : isBSTb t = true)
    {x : α} (hx : x ∈ toList t) :
    insert t x = (t, some "Item already in the tree") := by
  induction t with
  | lf => simp at hx
  | nd d l r ihl ihr =>
    obtain ⟨hl, hr, bl, br⟩ := isBSTb_nd.1 hb
    by_cases h1 : x < d
    · have hm : x ∈ toList l := (mem_left_of_lt hr h1).1 hx
      simp [insert, if_pos h1, ihl bl hm]
    · by_cases h2 : d < x
      · have hm : x ∈ toList r := (mem_right_of_lt hl h2).1 hx
        simp [insert, if_neg h1, if_pos h2, ihr br hm]
      · simp [insert, if_neg h1, if_neg h2]

theorem insert_not_mem [LinearOrder α] {t : Tree α} {x : α}
    (hx : x ∉ toList t) :
    (insert t x).2 = none ∧ AddedLeaf x t (insert t x).1 := by
  induction t with
  | lf => exact ⟨rfl, AddedLeaf.root⟩
  | nd d l r ihl ihr =>
    have hxl : x ∉ toList l := fun h => hx (by simp [h])
    have hxr : x ∉ toList r := fun h => hx (by simp [h])
    have hxd : x ≠ d := fun h => hx (by simp [h])
    rcases lt_or_gt_of_ne hxd with h1 | h2
    · obtain ⟨e, a⟩ := ihl hxl
      refine ⟨?_, ?_⟩
      · simp [insert, if_pos h1, e]
      · simp only [insert, if_pos h1]
        exact AddedLeaf.left d r a
    · have h1 : ¬x < d := asymm h2
      obtain ⟨e, a⟩ := ihr hxr
      refine ⟨?_, ?_⟩
      · simp [insert, if_neg h1, if_pos h2, e]
      · simp only [insert, if_neg h1, if_pos h2]
        exact AddedLeaf.right d l a

theorem AddedLeaf.toList_split {x : α} {t t2 : Tree α} (h : AddedLeaf x t t2) :
    ∃ L1 L2, toList t = L1 ++ L2 ∧ toList t2 = L1 ++ x :: L2 := by
  induction h with
  | root => exact ⟨[], [], rfl, rfl⟩
  | left d r _ ih =>
    obtain ⟨L1, L2, e1, e2⟩ := ih
    exact ⟨L1, L2 ++ d :: toList r, by simp [e1], by simp [e2]⟩
  | right d l _ ih =>
    obtain ⟨L1, L2, e1, e2⟩ := ih
    exact ⟨toList l ++ d :: L1, L2, by simp [e1], by simp [e2]⟩

theorem AddedLeaf.mem_iff {x y : α} {t t2 : Tree α} (h : AddedLeaf x t t2) :
    y ∈ toList t2 ↔ y = x ∨ y ∈ toList t := by
  obtain ⟨L1, L2, e1, e2⟩ := h.toList_split
  simp only [e1, e2, List.mem_append, List.mem_cons]
  tauto

theorem AddedLeaf.length_succ {x : α} {t t2 : Tree α} (h : AddedLeaf x t t2) :
    (toList t2).length = (toList t).length + 1 := by
  obtain ⟨L1, L2, e1, e2⟩ := h.toList_split
  simp [e1, e2]
  omega

theorem AddedLeaf.size_succ {x : α} {t t2 : Tree α} (h : AddedLeaf x t t2) :
    size t2 = size t + 1 := by
  rw [← length_toList, ← length_toList]
  exact h.length_succ

theorem isBSTb_insert [LinearOrder α] {t : Tree α} (hb : isBSTb t = true)
    {x : α} (hx : x ∉ toList t) : isBSTb (insert t x).1 = true := by
  induction t with
  | lf => rfl
  | nd d l r ihl ihr =>
    obtain ⟨hl, hr, bl, br⟩ := isBSTb_nd.1 hb
    have hxl : x ∉ toList l := fun h => hx (by simp [h])
    have hxr : x ∉ toList r := fun h => hx (by simp [h])
    have hxd : x ≠ d := fun h => hx (by simp [h])
    rcases lt_or_gt_of_ne hxd with h1 | h2
    · simp only [insert, if_pos h1]
      obtain ⟨e, a⟩ := insert_not_mem (t := l) (x := x) hxl
      refine isBSTb_nd.2 ⟨?_, hr, ihl bl hxl, br⟩
      intro y hy
      rcases a.mem_iff.1 hy with rfl | h
      · exact h1
      · exact hl y h
    · have h1 : ¬x < d := asymm h2
      simp only [insert, if_neg h1, if_pos h2]
      obtain ⟨e, a⟩ := insert_not_mem (t := r) (x := x) hxr
      refine isBSTb_nd.2 ⟨hl, ?_, bl, ihr br hxr⟩
      intro y hy
      rcases a.mem_iff.1 hy with rfl | h
      · exact h2
      · exact hr y h

/-! ### Correctness of `delMin` and `remove` -/

theorem delMin_toList (d : α) (l r : Tree α) :
    toList (.nd d l r) = (delMin d l r).1 :: toList (delMin d l r).2 := by
  induction l generalizing d r with
  | lf => rfl
  | nd dl ll lr ihl ihr =>
    simp only [delMin, toList_nd, ihl dl lr, List.cons_append]

theorem delMin_removedLeftmost (d : α) (l r : Tree α) :
    RemovedLeftmost (.nd d l r) (delMin d l r).1 (delMin d l r).2 := by
  induction l generalizing d r with
  | lf => exact RemovedLeftmost.here d r
  | nd dl ll lr ihl ihr =>
    simp only [delMin]
    exact RemovedLeftmost.deeper d r (ihl dl lr)

theorem remove_not_mem [LinearOrder α] {t : Tree α} {x : α}
    (hx : x ∉ toList t) :
    remove t x = (t, some "Item not in the BST") := by
  induction t with
  | lf => rfl
  | nd d l r ihl ihr =>
    have hxl : x ∉ toList l := fun h => hx (by simp [h])
    have hxr : x ∉ toList r := fun h => hx (by simp [h])
    have hxd : x ≠ d := fun h => hx (by simp [h])
    rcases lt_or_gt_of_ne hxd with h1 | h2
    · simp [remove, if_pos h1, ihl hxl]
    · have h1 : ¬x < d := asymm h2
      simp [remove, if_neg h1, if_pos h2, ihr hxr]

theorem remove_of_mem [LinearOrder α] {t : Tree α} (hb : isBSTb t = true)
    {x : α} (hx : x ∈ toList t) :
    (remove t x).2 = none ∧ toList (remove t x).1 = (toList t).erase x := by
  induction t with
  | lf => simp at hx
  | nd d l r ihl ihr =>
    obtain ⟨hl, hr, bl, br⟩ := isBSTb_nd.1 hb
    by_cases h1 : x < d
    · have hm : x ∈ toList l := (mem_left_of_lt hr h1).1 hx
      obtain ⟨e, el⟩ := ihl bl hm
      refine ⟨by simp [remove, if_pos h1, e], ?_⟩
      simp only [remove, if_pos h1, toList_nd, el]
      rw [List.erase_append_left _ hm]
    · by_cases h2 : d < x
      · have hm : x ∈ toList r := (mem_right_of_lt hl h2).1 hx
        have hxl : x ∉ toList l := fun h => absurd h2 (lt_asymm (hl x h))
        obtain ⟨e, er⟩ := ihr br hm
        refine ⟨by simp [remove, if_neg h1, if_pos h2, e], ?_⟩
        simp only [remove, if_neg h1, if_pos h2, toList_nd, er]
        rw [List.erase_append_right _ hxl,
          List.erase_cons_tail (by simp [ne_of_lt h2])]
      · have hxd : x = d := le_antisymm (not_lt.1 h2) (not_lt.1 h1)
        subst hxd
        have hxl : x ∉ toList l := fun h => lt_irrefl x (hl x h)
        have key : ∀ L2 : List α, (toList l ++ x :: L2).erase x = toList l ++ L2 :=
          fun L2 => by rw [List.erase_append_right _ hxl, List.erase_cons_head]
        rcases l with _ | ⟨dl, ll, lr⟩
        · have hrem : remove (Tree.nd x Tree.lf r) x = (r, none) := by
            simp [remove, if_neg h1, if_neg h2]
          refine ⟨by rw [hrem], ?_⟩
          rw [hrem]
          show toList r = (toList (Tree.lf : Tree α) ++ x :: toList r).erase x
          rw [key]
          rfl
        · rcases r with _ | ⟨dr, rl, rr⟩
          · have hrem : remove (Tree.nd x (Tree.nd dl ll lr) Tree.lf) x =
                (Tree.nd dl ll lr, none) := by
              simp [remove, if_neg h1, if_neg h2]
            refine ⟨by rw [hrem], ?_⟩
            rw [hrem]
            show toList (Tree.nd dl ll lr) =
              (toList (Tree.nd dl ll lr) ++ x :: toList (Tree.lf : Tree α)).erase x
            rw [key]
            simp
          · have hrem : remove (Tree.nd x (Tree.nd dl ll lr) (Tree.nd dr rl rr)) x =
                (Tree.nd (delMin dr rl rr).1 (Tree.nd dl ll lr) (delMin dr rl rr).2,
                  none) := by
              simp [remove, if_neg h1, if_neg h2]
            refine ⟨by rw [hrem], ?_⟩
            rw [hrem]
            show toList (Tree.nd dl ll lr) ++ (delMin dr rl rr).1 ::
                toList (delMin dr rl rr).2 =
              (toList (Tree.nd dl ll lr) ++ x :: toList (Tree.nd dr rl rr)).erase x
            rw [key, delMin_toList dr rl rr]

/-! ### The order invariant and the inorder sequence -/

theorem isBSTb_iff_sorted [LinearOrder α] (t : Tree α) :
    isBSTb t = true ↔ List.Sorted (· < ·) (toList t) := by
  induction t with
  | lf => simp [List.Sorted]
  | nd d l r ihl ihr =>
    rw [isBSTb_nd, ihl, ihr]
    simp only [toList_nd, List.Sorted, List.pairwise_append, List.pairwise_cons,
      List.mem_cons]
    constructor
    · rintro ⟨hl, hr, sl, sr⟩
      refine ⟨sl, ⟨hr, sr⟩, ?_⟩
      rintro a ha b (rfl | hb)
      · exact hl a ha
      · exact lt_trans (hl a ha) (hr b hb)
    · rintro ⟨sl, ⟨hr, sr⟩, hcross⟩
      exact ⟨fun y hy => hcross y hy d (Or.inl rfl), hr, sl, sr⟩

theorem nodup_toList [LinearOrder α] {t : Tree α} (hb : isBSTb t = true) :
    (toList t).Nodup := by
  exact ((isBSTb_iff_sorted t).1 hb).imp ne_of_lt

theorem isBSTb_remove [LinearOrder α] {t : Tree α} (hb : isBSTb t = true)
    (x : α) : isBSTb (remove t x).1 = true := by
  by_cases hx : x ∈ toList t
  · obtain ⟨e, el⟩ := remove_of_mem hb hx
    rw [isBSTb_iff_sorted] at hb ⊢
    rw [el]
    exact hb.sublist (List.erase_sublist x (toList t))
  · rw [remove_not_mem hx]
    exact hb

theorem isBSTb_applyOp [LinearOrder α] {t : Tree α} (hb : isBSTb t = true)
    (op : Op α) : isBSTb (applyOp t op) = true := by
  cases op with
  | ins x =>
    show isBSTb (insert t x).1 = true
    by_cases hx : x ∈ toList t
    · rw [insert_of_mem hb hx]
      exact hb
    · exact isBSTb_insert hb hx
  | del x =>
    show isBSTb (remove t x).1 = true
    exact isBSTb_remove hb x

theorem isBSTb_applyOps [LinearOrder α] (ops : List (Op α)) :
    isBSTb (applyOps ops) = true := by
  suffices h : ∀ t : Tree α, isBSTb t = true →
      isBSTb (ops.foldl applyOp t) = true from h .lf rfl
  induction ops with
  | nil => exact fun t ht => ht
  | cons op rest ih =>
    intro t ht
    rw [List.foldl_cons]
    exact ih _ (isBSTb_applyOp ht op)

/-! ### Traversal and graph outputs -/

theorem emitAll_append [ToString α] (sep : String) (L1 L2 : List α) :
    emitAll sep (L1 ++ L2) = emitAll sep L1 ++ emitAll sep L2 := by
  induction L1 with
  | nil => rfl
  | cons v vs ih => simp [emitAll, ih]

theorem inorderAux_eq_emitAll [ToString α] (sep : String) (t : Tree α) :
    inorderAux sep t = emitAll sep (toList t) := by
  induction t with
  | lf => rfl
  | nd d l r ihl ihr => simp [inorderAux, emitAll_append, emitAll, ihl, ihr]

theorem preorderAux_eq_emitAll [ToString α] (sep : String) (t : Tree α) :
    preorderAux sep t = emitAll sep (preorderVals t) := by
  induction t with
  | lf => rfl
  | nd d l r ihl ihr =>
    simp [preorderAux, preorderVals, emitAll_append, emitAll, ihl, ihr]

theorem postorderAux_eq_emitAll [ToString α] (sep : String) (t : Tree α) :
    postorderAux sep t = emitAll sep (postorderVals t) := by
  induction t with
  | lf => rfl
  | nd d l r ihl ihr =>
    simp [postorderAux, postorderVals, emitAll_append, emitAll, ihl, ihr]

theorem preorderVals_perm (t : Tree α) : (preorderVals t).Perm (toList t) := by
  induction t with
  | lf => exact List.Perm.refl []
  | nd d l r ihl ihr =>
    exact ((ihl.append ihr).cons d).trans List.perm_middle.symm

theorem postorderVals_perm (t : Tree α) : (postorderVals t).Perm (toList t) := by
  induction t with
  | lf => exact List.Perm.refl []
  | nd d l r ihl ihr =>
    exact (List.perm_append_singleton d (postorderVals l ++ postorderVals r)).trans
      (((ihl.append ihr).cons d).trans List.perm_middle.symm)

theorem renderAll_append (L1 L2 : List (Nat × String)) :
    renderAll (L1 ++ L2) = renderAll L1 ++ renderAll L2 := by
  induction L1 with
  | nil => rfl
  | cons p ps ih => simp [renderAll, ih]

theorem graphAux_eq_renderAll [ToString α] (indent : Nat) (t : Tree α) :
    graphAux indent t = renderAll (graphLines indent t) := by
  induction t generalizing indent with
  | lf => rfl
  | nd d l r ihl ihr =>
    simp [graphAux, graphLines, renderAll_append, renderAll, ihl, ihr]

/-! ### The state-passing traversals return the tree unchanged -/

theorem inorderSt_fst [ToString α] (sep : String) (t : Tree α) :
    (inorderSt sep t).1 = t := by
  induction t with
  | lf => rfl
  | nd d l r ihl ihr => simp [inorderSt, ihl, ihr]

theorem inorderSt_snd [ToString α] (sep : String) (t : Tree α) :
    (inorderSt sep t).2 = inorderAux sep t := by
  induction t with
  | lf => rfl
  | nd d l r ihl ihr => simp [inorderSt, inorderAux, ihl, ihr]

theorem preorderSt_fst [ToString α] (sep : String) (t : Tree α) :
    (preorderSt sep t).1 = t := by
  induction t with
  | lf => rfl
  | nd d l r ihl ihr => simp [preorderSt, ihl, ihr]

theorem preorderSt_snd [ToString α] (sep : String) (t : Tree α) :
    (preorderSt sep t).2 = preorderAux sep t := by
  induction t with
  | lf => rfl
  | nd d l r ihl ihr => simp [preorderSt, preorderAux, ihl, ihr]

theorem postorderSt_fst [ToString α] (sep : String) (t : Tree α) :
    (postorderSt sep t).1 = t := by
  induction t with
  | lf => rfl
  | nd d l r ihl ihr => simp [postorderSt, ihl, ihr]

theorem postorderSt_snd [ToString α] (sep : String) (t : Tree α) :
    (postorderSt sep t).2 = postorderAux sep t := by
  induction t with
  | lf => rfl
  | nd d l r ihl ihr => simp [postorderSt, postorderAux, ihl, ihr]

theorem graphSt_fst [ToString α] (indent : Nat) (t : Tree α) :
    (graphSt indent t).1 = t := by
  induction t generalizing indent with
  | lf => rfl
  | nd d l r ihl ihr => simp [graphSt, ihl, ihr]

theorem graphSt_snd [ToString α] (indent : Nat) (t : Tree α) :
    (graphSt indent t).2 = graphAux indent t := by
  induction t generalizing indent with
  | lf => rfl
  | nd d l r ihl ihr => simp [graphSt, graphAux, ihl, ihr]

/-! ### Membership after sequences of insertions -/

theorem mem_insert_iff [LinearOrder α] {t : Tree α} (hb : isBSTb t = true)
    (x y : α) : y ∈ toList (insert t x).1 ↔ y = x ∨ y ∈ toList t := by
  by_cases hx : x ∈ toList t
  · rw [insert_of_mem hb hx]
    constructor
    · exact fun h => Or.inr h
    · rintro (rfl | h)
      · exact hx
      · exact h
  · exact (insert_not_mem hx).2.mem_iff

theorem mem_insFold [LinearOrder α] (xs : List α) :
    ∀ t : Tree α, isBSTb t = true → ∀ y : α,
      y ∈ toList ((xs.map Op.ins).foldl applyOp t) ↔ y ∈ xs ∨ y ∈ toList t := by
  induction xs with
  | nil =>
    intro t _ y
    simp
  | cons v vs ih =>
    intro t hb y
    rw [List.map_cons, List.foldl_cons]
    have hb2 : isBSTb (applyOp t (Op.ins v)) = true := isBSTb_applyOp hb _
    rw [ih _ hb2 y]
    show y ∈ vs ∨ y ∈ toList (insert t v).1 ↔ y ∈ v :: vs ∨ y ∈ toList t
    rw [mem_insert_iff hb v y, List.mem_cons]
    tauto

theorem mem_applyOps_ins [LinearOrder α] (xs : List α) (y : α) :
    y ∈ toList (applyOps (xs.map Op.ins)) ↔ y ∈ xs := by
  rw [show applyOps (xs.map Op.ins) = (xs.map Op.ins).foldl applyOp .lf from rfl]
  rw [mem_insFold xs .lf rfl y]
  simp

/-! ### The claims -/

/-- C1: for every tree satisfying the order invariant, `search item` returns
true iff some node of the tree holds a value equal to `item`; and for any
sequence of distinct values inserted in any order into an initially empty
tree, `search` returns true for every inserted value and false for every
value never inserted. -/
theorem c1_search_correct [LinearOrder α] (t : Tree α) (hb : isBSTb t = true)
    (x : α) (xs : List α) (hnd : xs.Nodup) :
    (search t x = true ↔ x ∈ toList t) ∧
      (∀ y ∈ xs, search (applyOps (xs.map Op.ins)) y = true) ∧
      (∀ y : α, y ∉ xs → search (applyOps (xs.map Op.ins)) y = false) := by
  have hb2 : isBSTb (applyOps (xs.map Op.ins)) = true := isBSTb_applyOps _
  refine ⟨search_iff_mem hb x, ?_, ?_⟩
  · intro y hy
    rw [search_iff_mem hb2, mem_applyOps_ins xs y]
    exact hy
  · intro y hy
    rw [← Bool.not_eq_true, search_iff_mem hb2, mem_applyOps_ins xs y]
    exact hy

/-- C2: for every tree and every item absent from the tree (including the
empty tree), `remove` fails with the "Item not in the BST" error — the found
flag of the locate descent being false — and returns the tree exactly as it
was before the call. -/
theorem c2_remove_absent [LinearOrder α] (t : Tree α) (x : α)
    (hx : x ∉ toList t) :
    remove t x = (t, some "Item not in the BST") ∧
      (search2 t x).1 = false := by
  refine ⟨remove_not_mem hx, ?_⟩
  rw [search2_fst_eq_search, ← Bool.not_eq_true]
  exact fun h => hx (mem_of_search h)

/-- C3: for every tree satisfying the order invariant and every item equal to
a value already in the tree, `insert` fails with the "Item already in the
tree" error and returns the tree exactly as it was: no node is created and no
link or value changes. -/
theorem c3_insert_duplicate [LinearOrder α] (t : Tree α) (x : α)
    (hb : isBSTb t = true) (hx : x ∈ toList t) :
    insert t x = (t, some "Item already in the tree") :=
  insert_of_mem hb hx

/-- C4: for every tree satisfying the order invariant and not containing
`item`, `insert` succeeds and produces the input tree with exactly one new
childless node holding `item` hung at a formerly absent child (or made the
root if the tree was empty); the order invariant holds afterwards and the
element count grows by exactly one. -/
theorem c4_insert_new [LinearOrder α] (t : Tree α) (x : α)
    (hb : isBSTb t = true) (hx : x ∉ toList t) :
    (insert t x).2 = none ∧ AddedLeaf x t (insert t x).1 ∧
      isBSTb (insert t x).1 = true ∧
      (toList (insert t x).1).length = (toList t).length + 1 ∧
      size (insert t x).1 = size t + 1 := by
  obtain ⟨e, a⟩ := insert_not_mem hx
  exact ⟨e, a, isBSTb_insert hb hx, a.length_succ, a.size_succ⟩

/-- C5: for every tree satisfying the order invariant and containing `item`,
`remove` succeeds, destroys exactly one node, preserves the order invariant,
and the resulting inorder sequence is the inorder sequence before the call
with the single occurrence of `item` excised; afterwards `search item`
returns false and every other value is still found. -/
theorem c5_remove_present [LinearOrder α] (t : Tree α) (x : α)
    (hb : isBSTb t = true) (hx : x ∈ toList t) :
    (remove t x).2 = none ∧
      toList (remove t x).1 = (toList t).erase x ∧
      isBSTb (remove t x).1 = true ∧
      size (remove t x).1 + 1 = size t ∧
      search (remove t x).1 x = false ∧
      ∀ y ∈ toList t, y ≠ x → search (remove t x).1 y = true := by
  obtain ⟨e, el⟩ := remove_of_mem hb hx
  have hb2 : isBSTb (remove t x).1 = true := isBSTb_remove hb x
  have hnd : (toList t).Nodup := nodup_toList hb
  refine ⟨e, el, hb2, ?_, ?_, ?_⟩
  · rw [← length_toList, ← length_toList, el, List.length_erase_of_mem hx]
    have hpos : 0 < (toList t).length := List.length_pos.2 (List.ne_nil_of_mem hx)
    omega
  · rw [← Bool.not_eq_true, search_iff_mem hb2, el]
    intro hmem
    exact ((hnd.mem_erase_iff).1 hmem).1 rfl
  · intro y hy hne
    rw [search_iff_mem hb2, el]
    exact (List.mem_erase_of_ne hne).2 hy

/-- C6: when the node holding the removed item has two children, `remove`
unlinks the inorder successor — found by descending right once and then left
until no left child remains, so it is the first value of the inorder sequence
of the right subtree and its node has no left child — and copies its value
into the node holding the item; when the right child itself has no left
child, the successor is the right child and the link updated is the right
link of the removed node itself (the successor parent defaults to that node,
never to a stale pointer). -/
theorem c6_two_child_successor [LinearOrder α] (x dl dr : α)
    (ll lr rl rr : Tree α) :
    remove (.nd x (.nd dl ll lr) (.nd dr rl rr)) x =
        (.nd (delMin dr rl rr).1 (.nd dl ll lr) (delMin dr rl rr).2, none) ∧
      RemovedLeftmost (.nd dr rl rr) (delMin dr rl rr).1 (delMin dr rl rr).2 ∧
      toList (.nd dr rl rr) =
        (delMin dr rl rr).1 :: toList (delMin dr rl rr).2 ∧
      (rl = .lf → delMin dr rl rr = (dr, rr) ∧
        remove (.nd x (.nd dl ll lr) (.nd dr rl rr)) x =
          (.nd dr (.nd dl ll lr) rr, none)) := by
  have h1 : ¬x < x := lt_irrefl x
  refine ⟨?_, delMin_removedLeftmost dr rl rr, delMin_toList dr rl rr, ?_⟩
  · simp [remove, if_neg h1]
  · rintro rfl
    exact ⟨rfl, by simp [remove, if_neg h1, delMin]⟩

/-- C7: after any sequence of `insert`/`remove` calls applied to an initially
empty tree, the tree satisfies the BST order invariant and its inorder
sequence is strictly ascending. -/
theorem c7_order_invariant [LinearOrder α] (ops : List (Op α)) :
    isBSTb (applyOps ops) = true ∧
      List.Sorted (· < ·) (toList (applyOps ops)) :=
  ⟨isBSTb_applyOps ops, (isBSTb_iff_sorted _).1 (isBSTb_applyOps ops)⟩

/-- C8: each of `inorder`, `preorder` and `postorder` writes every element of
the tree exactly once, each followed by the separator, in the classical order
for that traversal (inorder: left, value, right; preorder: value, left,
right; postorder: left, right, value); the three visit sequences are
permutations of one another of length `size t`, and each traversal of an
empty tree produces no output. -/
theorem c8_traversals [ToString α] (t : Tree α) (sep : String) :
    inorder sep t = emitAll sep (toList t) ∧
      preorder sep t = emitAll sep (preorderVals t) ∧
      postorder sep t = emitAll sep (postorderVals t) ∧
      (preorderVals t : Multiset α) = (toList t : Multiset α) ∧
      (postorderVals t : Multiset α) = (toList t : Multiset α) ∧
      (preorderVals t).length = size t ∧
      (postorderVals t).length = size t ∧
      (toList t).length = size t ∧
      inorder sep (.lf : Tree α) = [] ∧
      preorder sep (.lf : Tree α) = [] ∧
      postorder sep (.lf : Tree α) = [] :=
  ⟨inorderAux_eq_emitAll sep t, preorderAux_eq_emitAll sep t,
    postorderAux_eq_emitAll sep t,
    Multiset.coe_eq_coe.2 (preorderVals_perm t),
    Multiset.coe_eq_coe.2 (postorderVals_perm t),
    ((preorderVals_perm t).length_eq).trans (length_toList t),
    ((postorderVals_perm t).length_eq).trans (length_toList t),
    length_toList t, rfl, rfl, rfl⟩

/-- C9: `graph` renders, for every node, first the right subtree at
`indent + 8`, then the value of the node at the current indent (0 for the
root), then the left subtree at `indent + 8`, and renders every absent child
as the placeholder "_" at the appropriate indent: its writes are exactly the
rendering of the line list `graphLines`, whose equations spell out that
shape. -/
theorem c9_graph [ToString α] (t : Tree α) (indent : Nat) (d : α)
    (l r : Tree α) :
    graph t = renderAll (graphLines 0 t) ∧
      graphLines indent (.nd d l r) =
        graphLines (indent + 8) r ++ [(indent, toString d)] ++
          graphLines (indent + 8) l ∧
      graphLines indent (.lf : Tree α) = [(indent, "_")] :=
  ⟨graphAux_eq_renderAll 0 t, rfl, rfl⟩

/-- C10: the traversal and printing operations leave the tree completely
unchanged — the state-passing models of `inorder`, `preorder`, `postorder`
and `graph` return the tree exactly as given, their writes being exactly the
output of the corresponding output function — and `graph` applied to an
empty tree writes one placeholder line rather than no output. -/
theorem c10_traversals_pure [ToString α] (t : Tree α) (sep : String)
    (indent : Nat) :
    (inorderSt sep t).1 = t ∧ (preorderSt sep t).1 = t ∧
      (postorderSt sep t).1 = t ∧ (graphSt indent t).1 = t ∧
      (inorderSt sep t).2 = inorder sep t ∧
      (preorderSt sep t).2 = preorder sep t ∧
      (postorderSt sep t).2 = postorder sep t ∧
      (graphSt 0 t).2 = graph t ∧
      graph (.lf : Tree α) = renderAll [(0, "_")] :=
  ⟨inorderSt_fst sep t, preorderSt_fst sep t, postorderSt_fst sep t,
    graphSt_fst indent t, inorderSt_snd sep t, preorderSt_snd sep t,
    postorderSt_snd sep t, graphSt_snd 0 t, rfl⟩

/-! ### Concrete checks

The tree below is the one built by the concrete scenario of §8 of the spec
(insert 5, 3, 8, 1, 4, 7, 9 in that order). -/

/-- The tree of the concrete scenario of §8 of the spec. -/
def tEx : Tree ℕ :=
  .nd 5 (.nd 3 (.nd 1 .lf .lf) (.nd 4 .lf .lf))
    (.nd 8 (.nd 7 .lf .lf) (.nd 9 .lf .lf))

theorem c1_search_correct_witness :
    isBSTb tEx = true ∧ (search tEx 4 = true ↔ 4 ∈ toList tEx) ∧
      search (applyOps ([5, 3, 8].map Op.ins)) 3 = true ∧
      search (applyOps ([5, 3, 8].map Op.ins)) 6 = false :=
  ⟨by decide,
    (c1_search_correct tEx (by decide) 4 [5, 3, 8] (by decide)).1,
    (c1_search_correct tEx (by decide) 4 [5, 3, 8] (by decide)).2.1 3 (by decide),
    (c1_search_correct tEx (by decide) 4 [5, 3, 8] (by decide)).2.2 6 (by decide)⟩

theorem c2_remove_absent_witness :
    6 ∉ toList tEx ∧
      remove tEx 6 = (tEx, some "Item not in the BST") ∧
      (search2 tEx 6).1 = false :=
  ⟨by decide, (c2_remove_absent tEx 6 (by decide)).1,
    (c2_remove_absent tEx 6 (by decide)).2⟩

theorem c3_insert_duplicate_witness :
    4 ∈ toList tEx ∧
      insert tEx 4 = (tEx, some "Item already in the tree") :=
  ⟨by decide, c3_insert_duplicate tEx 4 (by decide) (by decide)⟩

theorem c4_insert_new_witness :
    6 ∉ toList tEx ∧
      (insert tEx 6).2 = none ∧ AddedLeaf 6 tEx (insert tEx 6).1 ∧
      isBSTb (insert tEx 6).1 = true ∧
      (toList (insert tEx 6).1).length = (toList tEx).length + 1 ∧
      size (insert tEx 6).1 = size tEx + 1 := by
  have h := c4_insert_new tEx 6 (by decide) (by decide)
  exact ⟨by decide, h.1, h.2.1, h.2.2.1, h.2.2.2.1, h.2.2.2.2⟩

theorem c5_remove_present_witness :
    5 ∈ toList tEx ∧
      (remove tEx 5).2 = none ∧
      toList (remove tEx 5).1 = (toList tEx).erase 5 ∧
      isBSTb (remove tEx 5).1 = true ∧
      size (remove tEx 5).1 + 1 = size tEx ∧
      search (remove tEx 5).1 5 = false ∧
      search (remove tEx 5).1 7 = true := by
  have h := c5_remove_present tEx 5 (by decide) (by decide)
  exact ⟨by decide, h.1, h.2.1, h.2.2.1, h.2.2.2.1, h.2.2.2.2.1,
    h.2.2.2.2.2 7 (by decide) (by decide)⟩

theorem c6_two_child_successor_witness :
    remove (.nd 5 (.nd 3 .lf .lf) (.nd 8 .lf .lf)) 5 =
        (.nd 8 (.nd 3 .lf .lf) .lf, none) ∧
      RemovedLeftmost (.nd 8 (.lf : Tree ℕ) .lf) 8 .lf := by
  have h := c6_two_child_successor 5 3 8 (.lf : Tree ℕ) .lf .lf .lf
  exact ⟨(h.2.2.2 rfl).2, h.2.1⟩

end BSTLab
